import Mathlib

/-!
# Verification of the `memory-cache` LRU cache engine

Shallow embedding of `libs/memory-cache/src/lib/memory-cache.ts` (class
`LRUCache<K, V>`).

Modelling notes:

* The source keeps two structures in lock step: a `Map<K, CacheNodeImpl>` and a
  doubly-linked recency list with sentinel `head`/`tail` nodes (most recently
  used right after `head`, least recently used right before `tail`).  Every
  mutation updates both (`set` pairs `cache.set` with `addToFront`, `delete`
  pairs `cache.delete` with `removeNode`, `evictLRU` removes `tail.prev` from
  both, `clear` resets both).  We therefore embed the pair as a single
  association list `entries : List (K × Entry V)`, ordered most-recent-first:
  the list order is the recency order and key lookup is the map lookup.
* `Date.now()` becomes an explicit `now : Nat` argument on every operation
  that reads the clock (each such operation reads the clock at most once).
* JavaScript truthiness matters in two places and is embedded faithfully:
  the expiry test `node.expiresAt && Date.now() > node.expiresAt` treats both
  `undefined` and `0` as "no deadline", and `calculateExpiration` returns
  `undefined` when the effective TTL is `0` (because `0` is falsy).
* TTL values and timestamps are `Nat` (the spec constrains `defaultTtlMs` to a
  non-negative integer; `Date.now()` is a non-negative count of milliseconds).
* The `try`/`catch` in `set` can only fire on an internal fault, which the
  pure model has no counterpart for; the model's `set` always returns `true`,
  matching the normal-operation behaviour of the source.
-/

/-- Payload of a cache node (`CacheNodeImpl` without the intrusive list
pointers): the stored value and the optional absolute expiry timestamp. -/
structure Entry (V : Type) where
  value : V
  expiresAt : Option Nat
deriving Repr, DecidableEq

/-- State of an `LRUCache` instance: configuration (`maxSize`, `defaultTtl`),
the merged map/recency-list `entries` (head = most recently used), and the
three statistics counters. -/
structure LRUCache (K V : Type) where
  maxSize : Nat
  defaultTtl : Option Nat
  entries : List (K × Entry V)
  hits : Nat
  misses : Nat
  evictions : Nat
deriving Repr, DecidableEq

/-- Result shape of `getStats()` (`CacheStats` in `types.ts`); `hitRate` is a
real ratio, embedded as `ℚ`. -/
structure CacheStats where
  hits : Nat
  misses : Nat
  hitRate : ℚ
  size : Nat
  maxSize : Nat
  evictions : Nat
deriving Repr, DecidableEq

/-- Result shape of `getMultiple` (`BatchGetResult` in `types.ts`). -/
structure BatchGetResult (K V : Type) where
  found : List (K × V)
  notFound : List K
  total : Nat
deriving Repr, DecidableEq

/-- The expiry test used by `get`/`has`/`cleanup`:
`node.expiresAt && Date.now() > node.expiresAt`.  JS truthiness: a missing
(`undefined`) or zero `expiresAt` is falsy, so such an entry never expires. -/
def isExpiredAt (now : Nat) (expiresAt : Option Nat) : Bool :=
  match expiresAt with
  | none => false
  | some t => decide (t ≠ 0) && decide (now > t)

namespace LRUCache

variable {K V : Type} [DecidableEq K]

/-- `this.cache.get(key)`: look the key up in the (merged) map. -/
def findNode? (c : LRUCache K V) (k : K) : Option (K × Entry V) :=
  c.entries.find? (fun p => decide (p.1 = k))

/-- A fresh cache as produced by the constructor (empty list, sentinel-only
recency list, zeroed counters).  The constructor's `maxSize > 0` validation
appears as a hypothesis on the theorems that need it. -/
def empty (maxSize : Nat) (defaultTtl : Option Nat) : LRUCache K V :=
  { maxSize := maxSize, defaultTtl := defaultTtl, entries := [],
    hits := 0, misses := 0, evictions := 0 }

/-- `moveToFront(node)` = `removeNode(node)` then `addToFront(node)`: with
unique keys, detaching the node is erasing the (first) pair with its key, and
adding to front is consing. -/
def moveToFront (entries : List (K × Entry V)) (node : K × Entry V) :
    List (K × Entry V) :=
  node :: entries.eraseP (fun p => decide (p.1 = node.1))

/-- `calculateExpiration(ttl)`: `const effectiveTtl = ttl ?? this.defaultTtl;
return effectiveTtl ? Date.now() + effectiveTtl : undefined;`.  Nullish
coalescing keeps a given `ttl` of `0`; the conditional then treats a zero
effective TTL as falsy and yields no deadline. -/
def calculateExpiration (c : LRUCache K V) (now : Nat) (ttl : Option Nat) :
    Option Nat :=
  let effectiveTtl : Option Nat :=
    match ttl with
    | some t => some t
    | none => c.defaultTtl
  match effectiveTtl with
  | some t => if t = 0 then none else some (now + t)
  | none => none

/-- `delete(key)`: remove the key from map and list if present; report whether
it existed.  Returns the flag together with the successor state. -/
def delete (c : LRUCache K V) (k : K) : Bool × LRUCache K V :=
  match c.findNode? k with
  | none => (false, c)
  | some _ =>
      (true, { c with entries := c.entries.eraseP (fun p => decide (p.1 = k)) })

/-- `get(key)`: miss on absent key; lazily delete and miss on an expired key;
otherwise promote to most-recent, count a hit, and return the value. -/
def get (c : LRUCache K V) (now : Nat) (k : K) : Option V × LRUCache K V :=
  match c.findNode? k with
  | none => (none, { c with misses := c.misses + 1 })
  | some node =>
      if isExpiredAt now node.2.expiresAt then
        let c₁ := (c.delete k).2
        (none, { c₁ with misses := c₁.misses + 1 })
      else
        (some node.2.value,
          { c with entries := moveToFront c.entries (k, node.2),
                   hits := c.hits + 1 })

/-- `evictLRU()`: drop `tail.prev` (the last real node, i.e. the last list
element) from map and list and count an eviction; no-op when the list is
empty (`tail.prev === head`). -/
def evictLRU (c : LRUCache K V) : LRUCache K V :=
  match c.entries.getLast? with
  | none => c
  | some _ =>
      { c with entries := c.entries.dropLast, evictions := c.evictions + 1 }

/-- `set(key, value, ttl?)`: update-in-place + promote when the key exists;
otherwise evict the LRU entry when `size >= maxSize`, then insert at the
front.  Always reports success (the `catch` branch is unreachable absent an
internal fault). -/
def set (c : LRUCache K V) (now : Nat) (k : K) (v : V) (ttl : Option Nat) :
    Bool × LRUCache K V :=
  let expiresAt := c.calculateExpiration now ttl
  match c.findNode? k with
  | some _ =>
      (true, { c with entries := moveToFront c.entries (k, ⟨v, expiresAt⟩) })
  | none =>
      let c₁ := if c.maxSize ≤ c.entries.length then c.evictLRU else c
      (true, { c₁ with entries := (k, ⟨v, expiresAt⟩) :: c₁.entries })

/-- `has(key)`: same expiry test as `get` (including the lazy delete), but no
recency promotion and no counter update. -/
def has (c : LRUCache K V) (now : Nat) (k : K) : Bool × LRUCache K V :=
  match c.findNode? k with
  | none => (false, c)
  | some node =>
      if isExpiredAt now node.2.expiresAt then (false, (c.delete k).2)
      else (true, c)

/-- `clear()`: empty both structures and reset the three counters. -/
def clear (c : LRUCache K V) : LRUCache K V :=
  { c with entries := [], hits := 0, misses := 0, evictions := 0 }

/-- `keys()`: the keys whose entries pass `!node.expiresAt || now <=
node.expiresAt` (the complement of the expiry test).  The source iterates the
map in insertion order; the claims only use membership, which is
order-independent, so we read the merged list. -/
def keysList (c : LRUCache K V) (now : Nat) : List K :=
  (c.entries.filter (fun p =>
    match p.2.expiresAt with
    | none => true
    | some t => decide (t = 0) || decide (now ≤ t))).map Prod.fst

/-- `getStats()`. -/
def getStats (c : LRUCache K V) : CacheStats :=
  let total := c.hits + c.misses
  { hits := c.hits, misses := c.misses,
    hitRate := if total > 0 then (c.hits : ℚ) / (total : ℚ) else 0,
    size := c.entries.length, maxSize := c.maxSize, evictions := c.evictions }

/-- `cleanup()`: delete every expired entry (one pass over the map), return
the number removed.  Deleting each expired key one by one equals filtering
them all out, and the count is `countP` of the expiry test. -/
def cleanup (c : LRUCache K V) (now : Nat) : Nat × LRUCache K V :=
  (c.entries.countP (fun p => isExpiredAt now p.2.expiresAt),
    { c with entries :=
        c.entries.filter (fun p => ! isExpiredAt now p.2.expiresAt) })

/-- Loop body of `getMultiple`: one engine `get` per key in input order,
classifying by `value !== undefined` (here: the returned option is `some`),
pushing onto `found`/`notFound` in encounter order. -/
def getMultipleAux (c : LRUCache K V) (now : Nat) :
    List K → List (K × V) × List K × LRUCache K V
  | [] => ([], [], c)
  | k :: ks =>
      let r := c.get now k
      let rest := getMultipleAux r.2 now ks
      match r.1 with
      | some x => ((k, x) :: rest.1, rest.2.1, rest.2.2)
      | none => (rest.1, k :: rest.2.1, rest.2.2)

/-- `getMultiple(keys)`: sequence `get` over the keys, report found/notFound
in input order and `total = keys.length`. -/
def getMultiple (c : LRUCache K V) (now : Nat) (ks : List K) :
    BatchGetResult K V × LRUCache K V :=
  let r := getMultipleAux c now ks
  ({ found := r.1, notFound := r.2.1, total := ks.length }, r.2.2)

end LRUCache

/-! ## Engine-call traces

An operation trace over one cache instance, used to state trace-level
invariants (capacity, statistics).  Each constructor records the clock value
the operation would read. -/

/-- One engine-level call (the per-item interface of §6). -/
inductive CacheOp (K V : Type) where
  | get : Nat → K → CacheOp K V
  | set : Nat → K → V → Option Nat → CacheOp K V
  | del : K → CacheOp K V
  | has : Nat → K → CacheOp K V
  | clear : CacheOp K V
  | cleanup : Nat → CacheOp K V
deriving Repr, DecidableEq

namespace LRUCache

variable {K V : Type} [DecidableEq K]

/-- Apply one engine call to the state (discarding the returned value). -/
def step (c : LRUCache K V) : CacheOp K V → LRUCache K V
  | .get now k => (c.get now k).2
  | .set now k v ttl => (c.set now k v ttl).2
  | .del k => (c.delete k).2
  | .has now k => (c.has now k).2
  | .clear => c.clear
  | .cleanup now => (c.cleanup now).2

/-- Run a trace of engine calls left to right. -/
def run (c : LRUCache K V) (ops : List (CacheOp K V)) : LRUCache K V :=
  ops.foldl step c

/-- Number of `get` calls since the last `clear` (every `get` call, and only
`get` calls, move the hit/miss counters; `clear` zeroes them). -/
def getCalls (acc : Nat) : List (CacheOp K V) → Nat
  | [] => acc
  | op :: ops =>
      getCalls
        (match op with
         | .get _ _ => acc + 1
         | .clear => 0
         | _ => acc) ops

/-- Number of `set` calls on a key not currently present made while the cache
held exactly `maxSize` entries, counted since the last `clear` (these are the
capacity-triggered evictions). -/
def evictingSetCalls (c : LRUCache K V) (acc : Nat) :
    List (CacheOp K V) → Nat
  | [] => acc
  | op :: ops =>
      evictingSetCalls (c.step op)
        (match op with
         | .set _ k _ _ =>
             if (c.findNode? k).isNone && decide (c.entries.length = c.maxSize)
             then acc + 1
             else acc
         | .clear => 0
         | _ => acc) ops

/-- The keys currently present, in recency order (most recent first). -/
def keyOrder (c : LRUCache K V) : List K :=
  c.entries.map Prod.fst

/-- Well-formedness maintained by construction and every operation: positive
capacity, at most `maxSize` entries, and duplicate-free keys (a `Map` cannot
hold a key twice). -/
def WF (c : LRUCache K V) : Prop :=
  0 < c.maxSize ∧ c.entries.length ≤ c.maxSize ∧ c.keyOrder.Nodup

end LRUCache

/-! ## The JavaScript view of values

The TypeScript value parameter `V` may itself contain `undefined` (e.g.
`LRUCache<string, any>`).  `get` returns `node.value` on a hit, so a stored
`undefined` is indistinguishable from a miss at the JS level, and
`getMultiple`'s test `value !== undefined` classifies such a hit as not
found.  We embed this instantiation by taking the value type to be
`Option U` with `none` playing `undefined`: the JS-observable result of
`get` is then the `Option.join` of the model's result. -/

namespace LRUCache

variable {K U : Type} [DecidableEq K]

/-- Loop body of `getMultiple` for a value type containing `undefined`
(`V = Option U`): the comparison `value !== undefined` sees the joined
value, and `found` records that joined value. -/
def getMultipleJSAux (c : LRUCache K (Option U)) (now : Nat) :
    List K → List (K × Option U) × List K × LRUCache K (Option U)
  | [] => ([], [], c)
  | k :: ks =>
      let r := c.get now k
      let value : Option U := r.1.join
      let rest := getMultipleJSAux r.2 now ks
      if value.isNone then (rest.1, k :: rest.2.1, rest.2.2)
      else ((k, value) :: rest.1, rest.2.1, rest.2.2)

/-- `getMultiple(keys)` as observed at the JS level when the value type
contains `undefined`. -/
def getMultipleJS (c : LRUCache K (Option U)) (now : Nat) (ks : List K) :
    BatchGetResult K (Option U) × LRUCache K (Option U) :=
  let r := getMultipleJSAux c now ks
  ({ found := r.1, notFound := r.2.1, total := ks.length }, r.2.2)

end LRUCache

/-! ## Basic lemmas about lookup and the per-call operations -/

namespace LRUCache

variable {K V : Type} [DecidableEq K]

theorem findNode?_eq_none_iff (c : LRUCache K V) (k : K) :
    c.findNode? k = none ↔ k ∉ c.keyOrder := by
  rw [findNode?, List.find?_eq_none]
  constructor
  · intro h hk
    obtain ⟨p, hp, hpk⟩ := List.mem_map.mp hk
    have hnp := h p hp
    simp only [decide_eq_true_eq] at hnp
    exact hnp hpk
  · intro h p hp
    simp only [decide_eq_true_eq]
    intro hpk
    exact h (List.mem_map.mpr ⟨p, hp, hpk⟩)

theorem findNode?_key {c : LRUCache K V} {k : K} {kv : K × Entry V}
    (h : c.findNode? k = some kv) : kv.1 = k := by
  have := List.find?_some h
  simpa using this

theorem findNode?_mem {c : LRUCache K V} {k : K} {kv : K × Entry V}
    (h : c.findNode? k = some kv) : kv ∈ c.entries :=
  List.mem_of_find?_eq_some h

/-- After `set k`, looking `k` up yields the freshly stored entry. -/
theorem findNode?_set_self (c : LRUCache K V) (now : Nat) (k : K) (v : V)
    (ttl : Option Nat) :
    (c.set now k v ttl).2.findNode? k =
      some (k, ⟨v, c.calculateExpiration now ttl⟩) := by
  unfold set
  cases hf : c.findNode? k <;>
    simp [hf, moveToFront, findNode?, List.find?_cons_of_pos]

omit [DecidableEq K] in
/-- `calculateExpiration` never produces the deadline `0` (the one value the
expiry test would treat as falsy): any stored deadline is positive. -/
theorem calculateExpiration_ne_some_zero (c : LRUCache K V) (now : Nat)
    (ttl : Option Nat) : c.calculateExpiration now ttl ≠ some 0 := by
  unfold calculateExpiration
  cases ttl with
  | some t => by_cases ht : t = 0 <;> simp [ht]
  | none =>
      cases c.defaultTtl with
      | none => simp
      | some t => by_cases ht : t = 0 <;> simp [ht]

end LRUCache

namespace LRUCache

variable {K V : Type} [DecidableEq K]

/-- Erasing a key from a duplicate-free association list removes it
entirely. -/
theorem keys_eraseP_not_mem (l : List (K × Entry V)) (k : K)
    (hnd : (l.map Prod.fst).Nodup) :
    k ∉ (l.eraseP (fun p => decide (p.1 = k))).map Prod.fst := by
  induction l with
  | nil => simp
  | cons p l ih =>
      simp only [List.map_cons, List.nodup_cons] at hnd
      by_cases hp : p.1 = k
      · rw [List.eraseP_cons_of_pos (by simp [hp])]
        rw [← hp]
        exact hnd.1
      · rw [List.eraseP_cons_of_neg (by simp [hp])]
        simp only [List.map_cons, List.mem_cons]
        rintro (h | h)
        · exact hp h.symm
        · exact ih hnd.2 h

/-- `delete` on an absent key is the identity and reports `false`. -/
theorem delete_eq_of_not_found (c : LRUCache K V) (k : K)
    (h : c.findNode? k = none) : c.delete k = (false, c) := by
  simp [delete, h]

omit [DecidableEq K] in
/-- In a duplicate-free association list, members sharing a key are equal. -/
theorem eq_of_mem_of_nodup_keys {l : List (K × Entry V)}
    (hnd : (l.map Prod.fst).Nodup) {p q : K × Entry V}
    (hp : p ∈ l) (hq : q ∈ l) (hk : p.1 = q.1) : p = q :=
  List.inj_on_of_nodup_map hnd hp hq hk

end LRUCache

/-! ## Claims C3, C4, C5, C7, C9: per-call behaviour -/

/-- C3: `get(key)` on an absent key increments `misses` and returns absent; on
a present key past its deadline it removes the entry from the (merged)
map/recency structure, leaves `evictions` alone, increments `misses`, and
returns absent; on a present non-expired key it promotes the entry to the
most-recent position, increments `hits`, and returns the stored value. -/
theorem C3_get_postcondition {K V : Type} [DecidableEq K]
    (c : LRUCache K V) (now : Nat) (k : K) :
    (c.findNode? k = none →
      c.get now k = (none, { c with misses := c.misses + 1 })) ∧
    (∀ kv e, c.findNode? k = some kv → kv.2.expiresAt = some e →
      0 < e → now > e →
      c.get now k =
        (none, { c with
          entries := c.entries.eraseP (fun p => decide (p.1 = k)),
          misses := c.misses + 1 }) ∧
      (c.get now k).2.evictions = c.evictions ∧
      (c.keyOrder.Nodup → (c.get now k).2.findNode? k = none)) ∧
    (∀ kv, c.findNode? k = some kv → isExpiredAt now kv.2.expiresAt = false →
      c.get now k =
        (some kv.2.value,
          { c with entries := LRUCache.moveToFront c.entries (k, kv.2),
                   hits := c.hits + 1 })) := by
  refine ⟨fun hf => ?_, fun kv e hf he hpos hnow => ?_, fun kv hf hexp => ?_⟩
  · simp [LRUCache.get, hf]
  · have hexp : isExpiredAt now kv.2.expiresAt = true := by
      simp [isExpiredAt, he]
      omega
    have hget : c.get now k =
        (none, { c with
          entries := c.entries.eraseP (fun p => decide (p.1 = k)),
          misses := c.misses + 1 }) := by
      simp [LRUCache.get, hf, hexp, LRUCache.delete]
    refine ⟨hget, by simp [hget], fun hnd => ?_⟩
    rw [hget]
    rw [LRUCache.findNode?_eq_none_iff]
    exact LRUCache.keys_eraseP_not_mem c.entries k hnd
  · simp [LRUCache.get, hf, hexp, LRUCache.findNode?_key hf]

/-- Witness for C3: all three cases at concrete inputs. -/
theorem C3_get_postcondition_witness :
    ((⟨3, none, [(1, ⟨10, some 5⟩), (2, ⟨20, none⟩)], 0, 0, 0⟩ :
        LRUCache Nat Nat).get 6 1) =
      (none, ⟨3, none, [(2, ⟨20, none⟩)], 0, 1, 0⟩) ∧
    ((⟨3, none, [(1, ⟨10, some 5⟩), (2, ⟨20, none⟩)], 0, 0, 0⟩ :
        LRUCache Nat Nat).get 6 2) =
      (some 20, ⟨3, none, [(2, ⟨20, none⟩), (1, ⟨10, some 5⟩)], 1, 0, 0⟩) ∧
    ((⟨3, none, [(1, ⟨10, some 5⟩), (2, ⟨20, none⟩)], 0, 0, 0⟩ :
        LRUCache Nat Nat).get 6 9) =
      (none, ⟨3, none, [(1, ⟨10, some 5⟩), (2, ⟨20, none⟩)], 0, 1, 0⟩) := by
  have h := C3_get_postcondition
    (⟨3, none, [(1, ⟨10, some 5⟩), (2, ⟨20, none⟩)], 0, 0, 0⟩ :
      LRUCache Nat Nat) 6 1
  have h₂ := C3_get_postcondition
    (⟨3, none, [(1, ⟨10, some 5⟩), (2, ⟨20, none⟩)], 0, 0, 0⟩ :
      LRUCache Nat Nat) 6 2
  have h₉ := C3_get_postcondition
    (⟨3, none, [(1, ⟨10, some 5⟩), (2, ⟨20, none⟩)], 0, 0, 0⟩ :
      LRUCache Nat Nat) 6 9
  refine ⟨?_, ?_, ?_⟩
  · have := (h.2.1 (1, ⟨10, some 5⟩) 5 (by decide) rfl (by decide)
      (by decide)).1
    simpa using this
  · have := h₂.2.2 (2, ⟨20, none⟩) (by decide) (by decide)
    simpa [LRUCache.moveToFront] using this
  · have := h₉.1 (by decide)
    simpa using this

/-- C4 counterexample: a `set` whose per-call `ttl` is `0` has a TTL source
present, yet stores an entry with no expiration at all, not one expiring at
`now + 0`.  (With `now = 100`, key `1`, value `7`, `ttl = some 0` on an empty
cache without default TTL, the stored `expiresAt` is `none`, not
`some (100 + 0)`.) -/
theorem C4_ttl_zero_counterexample :
    ((((LRUCache.empty 2 none : LRUCache Nat Nat).set 100 1 7
        (some 0)).2.findNode? 1).map (fun p => p.2.expiresAt)) = some none ∧
    (some (none : Option Nat) ≠ some (some (100 + 0))) := by
  decide

/-- C4 (amended): `set(key, value, ttl)` stores
`expiresAt = now + (ttl ?? defaultTtlMs)` whenever the effective TTL
`ttl ?? defaultTtlMs` is present and non-zero, and stores no expiration
exactly when the effective TTL is absent or zero. -/
theorem C4_ttl_computation_amended {K V : Type} [DecidableEq K]
    (c : LRUCache K V) (now : Nat) (k : K) (v : V) (ttl : Option Nat) :
    (c.set now k v ttl).2.findNode? k =
      some (k, ⟨v, c.calculateExpiration now ttl⟩) ∧
    (∀ t, (ttl = some t ∨ (ttl = none ∧ c.defaultTtl = some t)) → t ≠ 0 →
      c.calculateExpiration now ttl = some (now + t)) ∧
    (c.calculateExpiration now ttl = none ↔
      (ttl = none ∧ c.defaultTtl = none) ∨ ttl = some 0 ∨
        (ttl = none ∧ c.defaultTtl = some 0)) := by
  refine ⟨LRUCache.findNode?_set_self c now k v ttl, ?_, ?_⟩
  · rintro t (rfl | ⟨rfl, hd⟩) ht
    · simp [LRUCache.calculateExpiration, ht]
    · simp [LRUCache.calculateExpiration, hd, ht]
  · cases ttl with
    | some t =>
        by_cases ht : t = 0 <;> simp [LRUCache.calculateExpiration, ht]
    | none =>
        cases hd : c.defaultTtl with
        | none => simp [LRUCache.calculateExpiration, hd]
        | some t =>
            by_cases ht : t = 0 <;> simp [LRUCache.calculateExpiration, hd, ht]

/-- Witness for C4 (amended): with `defaultTtl = some 50`, `set` at `now = 10`
with no per-call TTL stores deadline `60`; and a per-call TTL of `0` is in the
no-expiration class. -/
theorem C4_ttl_computation_amended_witness :
    ((LRUCache.empty 4 (some 50) : LRUCache Nat Nat).set 10 1 7
        none).2.findNode? 1 = some (1, ⟨7, some (10 + 50)⟩) ∧
    (LRUCache.empty 4 (some 50) : LRUCache Nat Nat).calculateExpiration 10
        (some 0) = none := by
  have h := C4_ttl_computation_amended
    (LRUCache.empty 4 (some 50) : LRUCache Nat Nat) 10 1 7 none
  have h₀ := C4_ttl_computation_amended
    (LRUCache.empty 4 (some 50) : LRUCache Nat Nat) 10 1 7 (some 0)
  refine ⟨?_, ?_⟩
  · have hc := h.2.1 50 (Or.inr ⟨rfl, rfl⟩) (by decide)
    rw [h.1, hc]
  · exact h₀.2.2.mpr (Or.inr (Or.inl rfl))

/-- C5: for a present entry with deadline `expiresAt = e > 0` (all deadlines
the engine stores are positive), the entry is treated as expired exactly when
`now > e`: at `now = e` the entry is still served by `get`, reported by
`has`, and listed by `keys()`. -/
theorem C5_strict_expiry_boundary {K V : Type} [DecidableEq K]
    (c : LRUCache K V) (now : Nat) (k : K) (kv : K × Entry V) (e : Nat)
    (hnd : c.keyOrder.Nodup)
    (hfind : c.findNode? k = some kv) (he : kv.2.expiresAt = some e)
    (hpos : 0 < e) :
    (((c.get now k).1 = some kv.2.value) ↔ now ≤ e) ∧
    (((c.has now k).1 = true) ↔ now ≤ e) ∧
    ((k ∈ c.keysList now) ↔ now ≤ e) ∧
    (∀ ttl, c.calculateExpiration now ttl ≠ some 0) := by
  have hkey : kv.1 = k := LRUCache.findNode?_key hfind
  have hmem : kv ∈ c.entries := LRUCache.findNode?_mem hfind
  have hexp : isExpiredAt now kv.2.expiresAt = decide (e < now) := by
    simp [isExpiredAt, he]
    omega
  refine ⟨?_, ?_, ?_,
    fun ttl => LRUCache.calculateExpiration_ne_some_zero c now ttl⟩
  · by_cases hlt : e < now
    · have hx : isExpiredAt now kv.2.expiresAt = true := by
        simp [isExpiredAt, he]
        omega
      simp [LRUCache.get, hfind, hx]
      omega
    · have hx : isExpiredAt now kv.2.expiresAt = false := by
        simp [isExpiredAt, he]
        omega
      simp [LRUCache.get, hfind, hx]
      omega
  · by_cases hlt : e < now
    · have hx : isExpiredAt now kv.2.expiresAt = true := by
        simp [isExpiredAt, he]
        omega
      simp [LRUCache.has, hfind, hx]
      omega
    · have hx : isExpiredAt now kv.2.expiresAt = false := by
        simp [isExpiredAt, he]
        omega
      simp [LRUCache.has, hfind, hx]
      omega
  · constructor
    · intro hk
      obtain ⟨p, hpf, hpk⟩ := List.mem_map.mp hk
      obtain ⟨hpmem, hpcond⟩ := List.mem_filter.mp hpf
      have hpq : p = kv :=
        LRUCache.eq_of_mem_of_nodup_keys hnd hpmem hmem (hpk.trans hkey.symm)
      subst hpq
      rw [he] at hpcond
      simp at hpcond
      omega
    · intro hle
      refine List.mem_map.mpr ⟨kv, List.mem_filter.mpr ⟨hmem, ?_⟩, hkey⟩
      rw [he]
      simp
      omega

/-- Witness for C5: an entry with deadline `5` is still served at the exact
expiry instant `now = 5` by `get`, `has` and `keys()`. -/
theorem C5_strict_expiry_boundary_witness :
    (((⟨3, none, [(1, ⟨10, some 5⟩)], 0, 0, 0⟩ :
        LRUCache Nat Nat).get 5 1).1 = some 10) ∧
    (((⟨3, none, [(1, ⟨10, some 5⟩)], 0, 0, 0⟩ :
        LRUCache Nat Nat).has 5 1).1 = true) ∧
    (1 ∈ (⟨3, none, [(1, ⟨10, some 5⟩)], 0, 0, 0⟩ :
        LRUCache Nat Nat).keysList 5) := by
  have h := C5_strict_expiry_boundary
    (⟨3, none, [(1, ⟨10, some 5⟩)], 0, 0, 0⟩ : LRUCache Nat Nat) 5 1
    (1, ⟨10, some 5⟩) 5 (by decide) (by decide) rfl (by decide)
  exact ⟨h.1.mpr (by decide), h.2.1.mpr (by decide), h.2.2.1.mpr (by decide)⟩

/-- C7: `delete(k)` on an absent key returns `false` and leaves the whole
state untouched; on a present key it removes `k` from the merged map/recency
structure and returns `true`, so a second `delete(k)` returns `false`; and
`delete` never changes `hits` or `misses` (nor `evictions`). -/
theorem C7_delete_idempotent {K V : Type} [DecidableEq K]
    (c : LRUCache K V) (k : K) :
    (c.findNode? k = none → c.delete k = (false, c)) ∧
    (∀ kv, c.findNode? k = some kv →
      (c.delete k).1 = true ∧
      (c.delete k).2.entries =
        c.entries.eraseP (fun p => decide (p.1 = k)) ∧
      (c.keyOrder.Nodup →
        (c.delete k).2.findNode? k = none ∧
        (c.delete k).2.delete k = (false, (c.delete k).2))) ∧
    (c.delete k).2.hits = c.hits ∧
    (c.delete k).2.misses = c.misses ∧
    (c.delete k).2.evictions = c.evictions := by
  refine ⟨fun hf => by simp [LRUCache.delete, hf], fun kv hf => ?_, ?_, ?_, ?_⟩
  · have hdel : c.delete k =
        (true, { c with
          entries := c.entries.eraseP (fun p => decide (p.1 = k)) }) := by
      simp [LRUCache.delete, hf]
    refine ⟨by simp [hdel], by simp [hdel], fun hnd => ?_⟩
    have hnone : (c.delete k).2.findNode? k = none := by
      rw [hdel, LRUCache.findNode?_eq_none_iff]
      exact LRUCache.keys_eraseP_not_mem c.entries k hnd
    exact ⟨hnone, LRUCache.delete_eq_of_not_found _ _ hnone⟩
  all_goals cases hf : c.findNode? k <;> simp [LRUCache.delete, hf]

/-- Witness for C7: both cases concretely, including `delete` twice in a row
returning `true` then `false`. -/
theorem C7_delete_idempotent_witness :
    ((⟨3, none, [(1, ⟨10, none⟩), (2, ⟨20, none⟩)], 4, 5, 6⟩ :
        LRUCache Nat Nat).delete 7) =
      (false, ⟨3, none, [(1, ⟨10, none⟩), (2, ⟨20, none⟩)], 4, 5, 6⟩) ∧
    ((⟨3, none, [(1, ⟨10, none⟩), (2, ⟨20, none⟩)], 4, 5, 6⟩ :
        LRUCache Nat Nat).delete 1).1 = true ∧
    (((⟨3, none, [(1, ⟨10, none⟩), (2, ⟨20, none⟩)], 4, 5, 6⟩ :
        LRUCache Nat Nat).delete 1).2.delete 1).1 = false ∧
    ((⟨3, none, [(1, ⟨10, none⟩), (2, ⟨20, none⟩)], 4, 5, 6⟩ :
        LRUCache Nat Nat).delete 1).2.hits = 4 := by
  have habs := C7_delete_idempotent
    (⟨3, none, [(1, ⟨10, none⟩), (2, ⟨20, none⟩)], 4, 5, 6⟩ :
      LRUCache Nat Nat) 7
  have hpres := C7_delete_idempotent
    (⟨3, none, [(1, ⟨10, none⟩), (2, ⟨20, none⟩)], 4, 5, 6⟩ :
      LRUCache Nat Nat) 1
  have hp := hpres.2.1 (1, ⟨10, none⟩) (by decide)
  refine ⟨habs.1 (by decide), hp.1, ?_, hpres.2.2.1⟩
  have := (hp.2.2 (by decide)).2
  simp [this]

/-- C9: a `set` whose effective TTL is exactly `0` — a per-call `ttl` of `0`
(whatever `defaultTtl` is, so `0` does not fall back to the default), or no
per-call `ttl` with `defaultTtl = 0` — stores an entry with no expiration:
`get` finds it at every later instant, rather than expiring it at `now`. -/
theorem C9_zero_ttl_never_expires {K V : Type} [DecidableEq K]
    (c : LRUCache K V) (now : Nat) (k : K) (v : V) :
    (c.set now k v (some 0)).2.findNode? k = some (k, ⟨v, none⟩) ∧
    (∀ now₂, ((c.set now k v (some 0)).2.get now₂ k).1 = some v) ∧
    (c.defaultTtl = some 0 →
      (c.set now k v none).2.findNode? k = some (k, ⟨v, none⟩)) := by
  have h0 : c.calculateExpiration now (some 0) = none := by
    simp [LRUCache.calculateExpiration]
  refine ⟨?_, fun now₂ => ?_, fun hd => ?_⟩
  · have := LRUCache.findNode?_set_self c now k v (some 0)
    rwa [h0] at this
  · have hf := LRUCache.findNode?_set_self c now k v (some 0)
    rw [h0] at hf
    simp [LRUCache.get, hf, isExpiredAt]
  · have := LRUCache.findNode?_set_self c now k v none
    have hnone : c.calculateExpiration now none = none := by
      simp [LRUCache.calculateExpiration, hd]
    rwa [hnone] at this

/-- Witness for C9: with `defaultTtl = some 30`, `set 1 7 (ttl := 0)` stores
a never-expiring entry (no fallback to the default), and with
`defaultTtl = some 0` a `set` without per-call TTL does the same. -/
theorem C9_zero_ttl_never_expires_witness :
    ((LRUCache.empty 3 (some 30) : LRUCache Nat Nat).set 10 1 7
        (some 0)).2.findNode? 1 = some (1, ⟨7, none⟩) ∧
    (((LRUCache.empty 3 (some 30) : LRUCache Nat Nat).set 10 1 7
        (some 0)).2.get 1000000 1).1 = some 7 ∧
    ((LRUCache.empty 3 (some 0) : LRUCache Nat Nat).set 10 1 7
        none).2.findNode? 1 = some (1, ⟨7, none⟩) := by
  have h := C9_zero_ttl_never_expires
    (LRUCache.empty 3 (some 30) : LRUCache Nat Nat) 10 1 7
  have h₀ := C9_zero_ttl_never_expires
    (LRUCache.empty 3 (some 0) : LRUCache Nat Nat) 10 1 7
  exact ⟨h.1, h.2.1 1000000, h₀.2.2 rfl⟩

/-! ## Batch-get lemmas (claims C8 and C10) -/

namespace LRUCache

variable {K V : Type} [DecidableEq K]

/-- Every `get` call moves `hits + misses` up by exactly one. -/
theorem get_hits_add_misses (c : LRUCache K V) (now : Nat) (k : K) :
    (c.get now k).2.hits + (c.get now k).2.misses = c.hits + c.misses + 1 := by
  cases hf : c.findNode? k with
  | none =>
      simp [get, hf]
      omega
  | some kv =>
      cases hx : isExpiredAt now kv.2.expiresAt
      · simp [get, hf, hx]
        omega
      · simp [get, hf, hx, delete]
        omega

theorem getMultipleAux_stats (c : LRUCache K V) (now : Nat) (ks : List K) :
    (getMultipleAux c now ks).2.2.hits + (getMultipleAux c now ks).2.2.misses
      = c.hits + c.misses + ks.length := by
  induction ks generalizing c with
  | nil => simp [getMultipleAux]
  | cons k ks ih =>
      have h1 := ih (c.get now k).2
      have h2 := get_hits_add_misses c now k
      cases hr : (c.get now k).1 <;> simp [getMultipleAux, hr] <;> omega

theorem getMultipleAux_order (c : LRUCache K V) (now : Nat) (ks : List K) :
    ((getMultipleAux c now ks).1.map Prod.fst).Sublist ks ∧
    (getMultipleAux c now ks).2.1.Sublist ks := by
  induction ks generalizing c with
  | nil => simp [getMultipleAux]
  | cons k ks ih =>
      obtain ⟨ihf, ihn⟩ := ih (c.get now k).2
      cases hr : (c.get now k).1 <;> simp [getMultipleAux, hr]
      · exact ⟨ihf.cons k, ihn⟩
      · exact ⟨ihf, ihn.cons k⟩

theorem getMultipleAux_append (c : LRUCache K V) (now : Nat)
    (ks₁ ks₂ : List K) :
    getMultipleAux c now (ks₁ ++ ks₂) =
      ((getMultipleAux c now ks₁).1 ++
          (getMultipleAux (getMultipleAux c now ks₁).2.2 now ks₂).1,
        (getMultipleAux c now ks₁).2.1 ++
          (getMultipleAux (getMultipleAux c now ks₁).2.2 now ks₂).2.1,
        (getMultipleAux (getMultipleAux c now ks₁).2.2 now ks₂).2.2) := by
  induction ks₁ generalizing c with
  | nil => simp [getMultipleAux]
  | cons k ks ih =>
      rw [List.cons_append]
      cases hr : (c.get now k).1 <;> simp [getMultipleAux, hr, ih]

end LRUCache

/-- C8: `getMultiple(keys)` runs one engine `get` per key, in input order and
without deduplication: `total` is the input length, every `get` contributes
exactly one hit-or-miss, `found`/`notFound` list their keys in input order
(as subsequences of the input), and processing `ks ++ ks₂` is literally
processing `ks` and then `ks₂` from the resulting state — so a repeated key
is processed once per occurrence, independently. -/
theorem C8_getMultiple_sequencing {K V : Type} [DecidableEq K]
    (c : LRUCache K V) (now : Nat) (ks : List K) :
    (c.getMultiple now ks).1.total = ks.length ∧
    ((c.getMultiple now ks).1.found.map Prod.fst).Sublist ks ∧
    (c.getMultiple now ks).1.notFound.Sublist ks ∧
    (c.getMultiple now ks).2.hits + (c.getMultiple now ks).2.misses =
      c.hits + c.misses + ks.length ∧
    (∀ ks₂ : List K,
      (c.getMultiple now (ks ++ ks₂)).1.found =
        (c.getMultiple now ks).1.found ++
          ((c.getMultiple now ks).2.getMultiple now ks₂).1.found ∧
      (c.getMultiple now (ks ++ ks₂)).1.notFound =
        (c.getMultiple now ks).1.notFound ++
          ((c.getMultiple now ks).2.getMultiple now ks₂).1.notFound ∧
      (c.getMultiple now (ks ++ ks₂)).2 =
        ((c.getMultiple now ks).2.getMultiple now ks₂).2) := by
  refine ⟨rfl, (LRUCache.getMultipleAux_order c now ks).1,
    (LRUCache.getMultipleAux_order c now ks).2,
    LRUCache.getMultipleAux_stats c now ks, fun ks₂ => ?_⟩
  have h := LRUCache.getMultipleAux_append c now ks ks₂
  refine ⟨?_, ?_, ?_⟩ <;> simp [LRUCache.getMultiple, h]

/-- C10: `getMultiple` classifies a key as found exactly when the JS-level
value returned by `get` is not `undefined`; hence a present, non-expired key
whose stored value is the `undefined` of the value type (`none` in the
`Option U` instantiation) lands in `notFound`, even though the `get` call
counts a hit and promotes the entry to most-recent. -/
theorem C10_getMultiple_undefined_value {K U : Type} [DecidableEq K]
    (c : LRUCache K (Option U)) (now : Nat) (k : K)
    (kv : K × Entry (Option U))
    (hfind : c.findNode? k = some kv)
    (hexp : isExpiredAt now kv.2.expiresAt = false)
    (hval : kv.2.value = none) :
    (c.getMultipleJS now [k]).1.notFound = [k] ∧
    (c.getMultipleJS now [k]).1.found = [] ∧
    (c.getMultipleJS now [k]).2.hits = c.hits + 1 ∧
    (c.getMultipleJS now [k]).2.misses = c.misses ∧
    (c.getMultipleJS now [k]).2.entries =
      LRUCache.moveToFront c.entries (k, kv.2) ∧
    (∀ (c₂ : LRUCache K (Option U)) (k₂ : K),
      ((c₂.getMultipleJS now [k₂]).1.found = [] ∧
        (c₂.getMultipleJS now [k₂]).1.notFound = [k₂])
        ↔ (c₂.get now k₂).1.join = none) := by
  have hget : c.get now k =
      (some kv.2.value,
        { c with entries := LRUCache.moveToFront c.entries (k, kv.2),
                 hits := c.hits + 1 }) := by
    simp [LRUCache.get, hfind, hexp, LRUCache.findNode?_key hfind]
  refine ⟨?_, ?_, ?_, ?_, ?_, fun c₂ k₂ => ?_⟩
  · simp [LRUCache.getMultipleJS, LRUCache.getMultipleJSAux, hget, hval]
  · simp [LRUCache.getMultipleJS, LRUCache.getMultipleJSAux, hget, hval]
  · simp [LRUCache.getMultipleJS, LRUCache.getMultipleJSAux, hget, hval]
  · simp [LRUCache.getMultipleJS, LRUCache.getMultipleJSAux, hget, hval]
  · simp [LRUCache.getMultipleJS, LRUCache.getMultipleJSAux, hget, hval]
  · cases hx : (c₂.get now k₂).1 with
    | none =>
        simp [LRUCache.getMultipleJS, LRUCache.getMultipleJSAux, hx,
          Option.join]
    | some w =>
        cases w with
        | none =>
            simp [LRUCache.getMultipleJS, LRUCache.getMultipleJSAux, hx,
              Option.join]
        | some u =>
            simp [LRUCache.getMultipleJS, LRUCache.getMultipleJSAux, hx,
              Option.join]

/-- Witness for C10: a cache holding key `1` with stored value `undefined`
(`none`) and no deadline: `getMultipleJS` reports it not found while counting
a hit. -/
theorem C10_getMultiple_undefined_value_witness :
    ((⟨2, none, [(1, ⟨none, none⟩)], 0, 0, 0⟩ :
        LRUCache Nat (Option Nat)).getMultipleJS 0 [1]).1.notFound = [1] ∧
    ((⟨2, none, [(1, ⟨none, none⟩)], 0, 0, 0⟩ :
        LRUCache Nat (Option Nat)).getMultipleJS 0 [1]).2.hits = 0 + 1 := by
  have h := C10_getMultiple_undefined_value
    (⟨2, none, [(1, ⟨none, none⟩)], 0, 0, 0⟩ : LRUCache Nat (Option Nat))
    0 1 (1, ⟨none, none⟩) (by decide) (by decide) rfl
  exact ⟨h.1, h.2.2.1⟩

/-! ## Traces of set calls (claims C1 and C2) -/

/-- One `set(key, value, ttl?)` call together with the clock value it
observes. -/
structure SetCall (K V : Type) where
  now : Nat
  key : K
  value : V
  ttl : Option Nat
deriving Repr, DecidableEq

/-- The engine-call trace of a list of `set` calls. -/
def setOps {K V : Type} (ds : List (SetCall K V)) : List (CacheOp K V) :=
  ds.map (fun d => CacheOp.set d.now d.key d.value d.ttl)

namespace LRUCache

variable {K V : Type} [DecidableEq K]

theorem run_append (c : LRUCache K V) (ops₁ ops₂ : List (CacheOp K V)) :
    run c (ops₁ ++ ops₂) = run (run c ops₁) ops₂ :=
  List.foldl_append step c ops₁ ops₂

omit [DecidableEq K] in
/-- On a non-empty list, `evictLRU` drops the last (least recent) entry and
counts one eviction. -/
theorem evictLRU_of_ne_nil (c : LRUCache K V) (h : c.entries ≠ []) :
    c.evictLRU =
      { c with entries := c.entries.dropLast,
               evictions := c.evictions + 1 } := by
  unfold evictLRU
  cases hg : c.entries.getLast? with
  | none => exact absurd (List.getLast?_eq_none_iff.mp hg) h
  | some _ => rfl

/-- `set` of an absent key below capacity: plain insert at the front. -/
theorem set_fresh_below (c : LRUCache K V) (now : Nat) (k : K) (v : V)
    (ttl : Option Nat) (hf : c.findNode? k = none)
    (hlt : c.entries.length < c.maxSize) :
    (c.set now k v ttl).2 =
      { c with entries :=
          (k, ⟨v, c.calculateExpiration now ttl⟩) :: c.entries } := by
  have h : ¬ c.maxSize ≤ c.entries.length := by omega
  simp [set, hf, h]

/-- `set` of an absent key at (or beyond) capacity on a non-empty cache:
evict the last entry, then insert at the front. -/
theorem set_fresh_at_capacity (c : LRUCache K V) (now : Nat) (k : K) (v : V)
    (ttl : Option Nat) (hf : c.findNode? k = none)
    (hge : c.maxSize ≤ c.entries.length) (hne : c.entries ≠ []) :
    (c.set now k v ttl).2 =
      { c with
          entries :=
            (k, ⟨v, c.calculateExpiration now ttl⟩) :: c.entries.dropLast,
          evictions := c.evictions + 1 } := by
  simp [set, hf, hge, evictLRU_of_ne_nil c hne]

/-- Running a sequence of `set` calls with pairwise-distinct keys from a
fresh cache of capacity `n`: the surviving keys are exactly the `n` most
recently set ones (most recent first), the size is `min (number of calls) n`,
and the eviction counter is the overshoot beyond `n`. -/
theorem run_setOps_distinct_spec (n : Nat) (hn : 0 < n) (ttl : Option Nat)
    (ds : List (SetCall K V)) (hnd : (ds.map SetCall.key).Nodup) :
    (run (empty n ttl : LRUCache K V) (setOps ds)).keyOrder =
      (ds.map SetCall.key).reverse.take n ∧
    (run (empty n ttl : LRUCache K V) (setOps ds)).maxSize = n ∧
    (run (empty n ttl : LRUCache K V) (setOps ds)).entries.length =
      min ds.length n ∧
    (run (empty n ttl : LRUCache K V) (setOps ds)).evictions =
      ds.length - n := by
  induction ds using List.reverseRecOn with
  | nil => simp [run, setOps, empty, keyOrder]
  | append_singleton ds d ih =>
      rw [List.map_append] at hnd
      have hnd' : (ds.map SetCall.key).Nodup := (List.nodup_append.mp hnd).1
      have hdk : d.key ∉ ds.map SetCall.key := by
        intro hmem
        exact (List.nodup_append.mp hnd).2.2 hmem (by simp)
      obtain ⟨hko, hms, hlen, hev⟩ := ih hnd'
      set c := run (empty n ttl : LRUCache K V) (setOps ds) with hc
      have hrun : run (empty n ttl : LRUCache K V) (setOps (ds ++ [d]))
          = (c.set d.now d.key d.value d.ttl).2 := by
        rw [setOps, List.map_append, run, List.foldl_append]
        rfl
      have hfree : c.findNode? d.key = none := by
        rw [findNode?_eq_none_iff, hko]
        intro hmem
        exact hdk (List.mem_reverse.mp (List.mem_of_mem_take hmem))
      have hrevlen : (ds.map SetCall.key).reverse.length = ds.length := by
        simp
      have hko' : List.map Prod.fst c.entries =
          List.take n (List.map SetCall.key ds).reverse := hko
      have htarget :
          ((ds ++ [d]).map SetCall.key).reverse.take n =
            d.key :: (ds.map SetCall.key).reverse.take (n - 1) := by
        rw [List.map_append, List.reverse_append]
        simp only [List.map_cons, List.map_nil, List.reverse_cons,
          List.reverse_nil, List.nil_append, List.singleton_append]
        exact List.take_cons hn
      by_cases hcap : n ≤ c.entries.length
      · have hlen_n : c.entries.length = n := by omega
        have hds_ge : n ≤ ds.length := by omega
        have hne : c.entries ≠ [] := by
          intro h0
          rw [h0] at hlen_n
          simp at hlen_n
          omega
        have hset := set_fresh_at_capacity c d.now d.key d.value d.ttl
          hfree (by omega) hne
        refine ⟨?_, ?_, ?_, ?_⟩
        · rw [hrun, hset, htarget]
          simp only [keyOrder, List.map_cons, List.map_dropLast]
          rw [hko', List.dropLast_eq_take, List.length_take, hrevlen,
            List.take_take]
          have hidx : (n ⊓ ds.length - 1) ⊓ n = n - 1 := by omega
          rw [hidx]
        · rw [hrun, hset]
          exact hms
        · rw [hrun, hset]
          simp only [List.length_cons, List.length_dropLast,
            List.length_append, List.length_singleton]
          omega
        · rw [hrun, hset]
          simp only [List.length_append, List.length_singleton]
          rw [hev] at *
          omega
      · have hds_lt : ds.length < n := by omega
        have hset := set_fresh_below c d.now d.key d.value d.ttl hfree
          (by omega)
        have htake : (ds.map SetCall.key).reverse.take n =
            (ds.map SetCall.key).reverse := by
          apply List.take_of_length_le
          omega
        have htake₁ : (ds.map SetCall.key).reverse.take (n - 1) =
            (ds.map SetCall.key).reverse := by
          apply List.take_of_length_le
          omega
        refine ⟨?_, ?_, ?_, ?_⟩
        · rw [hrun, hset, htarget, htake₁]
          simp only [keyOrder, List.map_cons]
          rw [hko', htake]
        · rw [hrun, hset]
          exact hms
        · rw [hrun, hset]
          simp only [List.length_cons, List.length_append,
            List.length_singleton, List.length_nil]
          omega
        · rw [hrun, hset]
          simp only [List.length_append, List.length_singleton,
            List.length_cons, List.length_nil]
          omega

end LRUCache

/-- C1: running any sequence of `set` calls with pairwise-distinct keys from
a fresh cache of capacity `n > 0` (in particular sequences longer than `n`),
the entry count never exceeds `n` (the bound holds after every prefix, since
every prefix is itself such a sequence); the present keys are exactly the `n`
most recently set ones in recency order, so every capacity-triggered eviction
removed the least recently touched key; explicitly, once at capacity, one
more `set` of a fresh key yields the new key consed onto the previous recency
order minus its last (least recently touched) element; and the eviction
counter equals the overshoot beyond the capacity. -/
theorem C1_capacity_invariant {K V : Type} [DecidableEq K] (n : Nat)
    (hn : 0 < n) (ttl : Option Nat) (ds : List (SetCall K V))
    (hnd : (ds.map SetCall.key).Nodup) :
    ((LRUCache.empty n ttl : LRUCache K V).run (setOps ds)).entries.length
      ≤ n ∧
    ((LRUCache.empty n ttl : LRUCache K V).run (setOps ds)).keyOrder =
      (ds.map SetCall.key).reverse.take n ∧
    ((LRUCache.empty n ttl : LRUCache K V).run (setOps ds)).evictions =
      ds.length - n ∧
    (∀ d : SetCall K V, ((ds ++ [d]).map SetCall.key).Nodup →
      n ≤ ds.length →
      ((LRUCache.empty n ttl : LRUCache K V).run
          (setOps (ds ++ [d]))).keyOrder =
        d.key ::
          ((LRUCache.empty n ttl : LRUCache K V).run
            (setOps ds)).keyOrder.dropLast) := by
  obtain ⟨h1, h2, h3, h4⟩ :=
    LRUCache.run_setOps_distinct_spec n hn ttl ds hnd
  refine ⟨by omega, h1, h4, fun d hnd₂ hge => ?_⟩
  obtain ⟨g1, g2, g3, g4⟩ :=
    LRUCache.run_setOps_distinct_spec n hn ttl (ds ++ [d]) hnd₂
  rw [g1, h1]
  rw [List.map_append, List.reverse_append]
  simp only [List.map_cons, List.map_nil, List.reverse_cons,
    List.reverse_nil, List.nil_append, List.singleton_append]
  rw [List.take_cons hn]
  congr 1
  rw [List.dropLast_eq_take, List.length_take, List.length_reverse,
    List.length_map, List.take_take]
  have hidx : (n ⊓ ds.length - 1) ⊓ n = n - 1 := by omega
  rw [hidx]

/-- Witness for C1: capacity 2, three distinct sets; size stays ≤ 2, the
surviving keys are the two most recent (`[3, 2]`), one eviction happened,
and the step from `[1, 2]` set to adding key `3` evicted exactly the least
recent key `1`. -/
theorem C1_capacity_invariant_witness :
    ((LRUCache.empty 2 none : LRUCache Nat Nat).run
        (setOps [⟨0, 1, 10, none⟩, ⟨0, 2, 20, none⟩,
          ⟨0, 3, 30, none⟩])).entries.length ≤ 2 ∧
    ((LRUCache.empty 2 none : LRUCache Nat Nat).run
        (setOps [⟨0, 1, 10, none⟩, ⟨0, 2, 20, none⟩,
          ⟨0, 3, 30, none⟩])).keyOrder = [3, 2] ∧
    ((LRUCache.empty 2 none : LRUCache Nat Nat).run
        (setOps [⟨0, 1, 10, none⟩, ⟨0, 2, 20, none⟩,
          ⟨0, 3, 30, none⟩])).evictions = 1 ∧
    ((LRUCache.empty 2 none : LRUCache Nat Nat).run
        (setOps ([⟨0, 1, 10, none⟩, ⟨0, 2, 20, none⟩] ++
          [⟨0, 3, 30, none⟩]))).keyOrder =
      3 :: ((LRUCache.empty 2 none : LRUCache Nat Nat).run
        (setOps [⟨0, 1, 10, none⟩, ⟨0, 2, 20, none⟩])).keyOrder.dropLast := by
  have h := C1_capacity_invariant 2 (by decide) none
    [⟨0, 1, 10, none⟩, ⟨0, 2, 20, none⟩, (⟨0, 3, 30, none⟩ : SetCall Nat Nat)]
    (by decide)
  have h₂ := C1_capacity_invariant 2 (by decide) none
    [⟨0, 1, 10, none⟩, (⟨0, 2, 20, none⟩ : SetCall Nat Nat)] (by decide)
  exact ⟨h.1, h.2.1, h.2.2.1,
    h₂.2.2.2 ⟨0, 3, 30, none⟩ (by decide) (by decide)⟩

namespace LRUCache

variable {K V : Type} [DecidableEq K]

/-- Folding `set` calls with fresh, pairwise-distinct keys over a cache that
is exactly at capacity: each call evicts the current tail and inserts at the
front, so the final recency order is the new keys (most recent first)
followed by the surviving prefix of the old order, and the size stays pinned
at `maxSize`. -/
theorem run_setOps_fresh_at_capacity (ds : List (SetCall K V))
    (c : LRUCache K V)
    (hcap : c.entries.length = c.maxSize) (hn : 0 < c.maxSize)
    (hdisj : ∀ x ∈ ds.map SetCall.key, x ∉ c.keyOrder)
    (hnd : (ds.map SetCall.key).Nodup)
    (hlen : ds.length ≤ c.maxSize) :
    (c.run (setOps ds)).keyOrder =
      (ds.map SetCall.key).reverse ++
        c.keyOrder.take (c.maxSize - ds.length) ∧
    (c.run (setOps ds)).maxSize = c.maxSize ∧
    (c.run (setOps ds)).entries.length = c.maxSize := by
  induction ds generalizing c with
  | nil =>
      have hkolen : c.keyOrder.length = c.maxSize := by
        simpa [keyOrder] using hcap
      refine ⟨?_, rfl, hcap⟩
      simp [run, setOps, List.take_of_length_le (le_of_eq hkolen)]
  | cons d ds ih =>
      have hfree : c.findNode? d.key = none :=
        (findNode?_eq_none_iff c d.key).mpr (hdisj d.key (by simp))
      have hne : c.entries ≠ [] := by
        intro h0
        rw [h0] at hcap
        simp at hcap
        omega
      have hset := set_fresh_at_capacity c d.now d.key d.value d.ttl hfree
        (le_of_eq hcap.symm) hne
      have hrun : c.run (setOps (d :: ds)) =
          (c.set d.now d.key d.value d.ttl).2.run (setOps ds) := rfl
      set c₂ := (c.set d.now d.key d.value d.ttl).2 with hc₂
      have hko₂ : c₂.keyOrder = d.key :: c.keyOrder.dropLast := by
        rw [hset]
        simp [keyOrder, List.map_dropLast]
      have hms₂ : c₂.maxSize = c.maxSize := by rw [hset]
      have hlen₂ : c₂.entries.length = c₂.maxSize := by
        rw [hset]
        simp only [List.length_cons, List.length_dropLast]
        omega
      have hkolen : c.keyOrder.length = c.maxSize := by
        simpa [keyOrder] using hcap
      have hdisj₂ : ∀ x ∈ ds.map SetCall.key, x ∉ c₂.keyOrder := by
        intro x hx hmem
        rw [hko₂] at hmem
        rcases List.mem_cons.mp hmem with h | h
        · rw [List.map_cons] at hnd
          exact (List.nodup_cons.mp hnd).1 (h ▸ hx)
        · exact hdisj x (by simp [hx])
            ((List.dropLast_sublist c.keyOrder).subset h)
      have hnd₂ : (ds.map SetCall.key).Nodup := by
        rw [List.map_cons] at hnd
        exact (List.nodup_cons.mp hnd).2
      have hlen₂' : ds.length ≤ c₂.maxSize := by
        rw [hms₂]
        simp at hlen
        omega
      obtain ⟨g1, g2, g3⟩ := ih c₂ hlen₂ (by rw [hms₂]; exact hn) hdisj₂
        hnd₂ hlen₂'
      refine ⟨?_, by rw [hrun, g2, hms₂], by rw [hrun, g3, hms₂]⟩
      rw [hrun, g1, hko₂, hms₂]
      have hpos : 0 < c.maxSize - ds.length := by
        simp at hlen
        omega
      rw [List.take_cons hpos]
      rw [List.dropLast_eq_take, hkolen, List.take_take]
      have hidx : (c.maxSize - ds.length - 1) ⊓ (c.maxSize - 1) =
          c.maxSize - (d :: ds).length := by
        simp only [List.length_cons]
        omega
      rw [hidx]
      simp

end LRUCache

namespace LRUCache

variable {K V : Type} [DecidableEq K]

/-- `get` on a present, non-expired key: hit, promote, count. -/
theorem get_hit (c : LRUCache K V) (now : Nat) (k : K) (kv : K × Entry V)
    (hfind : c.findNode? k = some kv)
    (hexp : isExpiredAt now kv.2.expiresAt = false) :
    c.get now k =
      (some kv.2.value,
        { c with entries := moveToFront c.entries (k, kv.2),
                 hits := c.hits + 1 }) := by
  simp [get, hfind, hexp, findNode?_key hfind]

/-- The key at the most-recent position of a cache pinned at capacity
survives any run of fewer than `maxSize` fresh-key `set` calls. -/
theorem head_survives_fresh_at_capacity (c₁ : LRUCache K V) (k : K)
    (rest : List K) (hko : c₁.keyOrder = k :: rest)
    (hcap : c₁.entries.length = c₁.maxSize) (hn : 0 < c₁.maxSize)
    (ds : List (SetCall K V)) (hds : (ds.map SetCall.key).Nodup)
    (hdisj : ∀ x ∈ ds.map SetCall.key, x ∉ c₁.keyOrder)
    (hlen : ds.length < c₁.maxSize) :
    k ∈ (c₁.run (setOps ds)).keyOrder := by
  obtain ⟨g1, g2, g3⟩ := run_setOps_fresh_at_capacity ds c₁ hcap hn hdisj
    hds (le_of_lt hlen)
  rw [g1, hko]
  have hpos : 0 < c₁.maxSize - ds.length := by omega
  rw [List.take_cons hpos]
  simp

end LRUCache

/-- C2 counterexample: with capacity 3, keys 1, 2, 3 set, `get 1` promoting
key 1, inserting capacity-many (three) other distinct new keys 4, 5, 6 DOES
evict key 1 (the third insertion evicts it), contradicting the claim that
capacity-many insertions after a promotion never evict the promoted key. -/
theorem C2_capacity_insertions_counterexample :
    (((((((((LRUCache.empty 3 none : LRUCache Nat Nat).set 0 1 1
        none).2.set 0 2 2 none).2.set 0 3 3 none).2.get 0 1).2.set 0 4 4
        none).2.set 0 5 5 none).2.set 0 6 6 none).2.get 0 1).1 = none := by
  decide

/-- C2 (amended): on a cache at capacity with duplicate-free keys, promoting
a present non-expired key `k` by `get(k)` (or by `set(k, …)`) and then
inserting at most `capacity − 1` other distinct new keys never evicts `k`;
the key evicted by the first such insertion is the pre-promotion
least-recently-touched key — for promotion via `get` and via `set` alike —
provided that key is not `k` itself; and
Scenario A holds: capacity 3, `set(1,1)`, `set(2,2)`, `set(3,3)`, `get(1)`,
`set(4,4)` leaves `get(2)` absent and `get(1) = 1`, `get(3) = 3`,
`get(4) = 4`. -/
theorem C2_recency_promotion_amended {K V : Type} [DecidableEq K]
    (c : LRUCache K V) (now₀ : Nat) (k : K) (kv : K × Entry V)
    (hn : 0 < c.maxSize) (hcap : c.entries.length = c.maxSize)
    (hnd : c.keyOrder.Nodup)
    (hfind : c.findNode? k = some kv)
    (hexp : isExpiredAt now₀ kv.2.expiresAt = false)
    (ds : List (SetCall K V))
    (hds : (ds.map SetCall.key).Nodup)
    (hfresh : ∀ x ∈ ds.map SetCall.key, x ∉ c.keyOrder)
    (hlen : ds.length < c.maxSize) :
    k ∈ ((c.get now₀ k).2.run (setOps ds)).keyOrder ∧
    (∀ v ttl, k ∈ ((c.set now₀ k v ttl).2.run (setOps ds)).keyOrder) ∧
    (∀ m : K × Entry V, c.entries.getLast? = some m → m.1 ≠ k →
      ∀ d ds₂, ds = d :: ds₂ →
        m.1 ∉ ((c.get now₀ k).2.run (setOps [d])).keyOrder) ∧
    (∀ v ttl (m : K × Entry V), c.entries.getLast? = some m → m.1 ≠ k →
      ∀ d ds₂, ds = d :: ds₂ →
        m.1 ∉ ((c.set now₀ k v ttl).2.run (setOps [d])).keyOrder) ∧
    (let cA := ((((((LRUCache.empty 3 none : LRUCache Nat Nat).set 0 1 1
        none).2.set 0 2 2 none).2.set 0 3 3 none).2.get 0 1).2.set 0 4 4
        none).2
     (cA.get 0 2).1 = none ∧ (cA.get 0 1).1 = some 1 ∧
       (cA.get 0 3).1 = some 3 ∧ (cA.get 0 4).1 = some 4) := by
  have hkey : kv.1 = k := LRUCache.findNode?_key hfind
  have hmem : kv ∈ c.entries := LRUCache.findNode?_mem hfind
  have hkmem : k ∈ c.keyOrder := List.mem_map.mpr ⟨kv, hmem, hkey⟩
  have hmemP : (fun p : K × Entry V => decide (p.1 = k)) kv = true := by
    simp [hkey]
  have hget := LRUCache.get_hit c now₀ k kv hfind hexp
  have hent₁ : (c.get now₀ k).2.entries =
      (k, kv.2) :: c.entries.eraseP (fun p => decide (p.1 = k)) := by
    rw [hget]
    simp [LRUCache.moveToFront]
  have hlen₁ : (c.get now₀ k).2.entries.length = c.maxSize := by
    rw [hent₁, List.length_cons, List.length_eraseP_of_mem hmem hmemP]
    omega
  have hms₁ : (c.get now₀ k).2.maxSize = c.maxSize := by rw [hget]
  have hko₁ : (c.get now₀ k).2.keyOrder =
      k :: (c.entries.eraseP (fun p => decide (p.1 = k))).map Prod.fst := by
    rw [hget]
    simp [LRUCache.keyOrder, LRUCache.moveToFront]
  have hsub : ((c.entries.eraseP
      (fun p => decide (p.1 = k))).map Prod.fst).Sublist c.keyOrder :=
    (List.eraseP_sublist c.entries).map Prod.fst
  have hdisj₁ : ∀ x ∈ ds.map SetCall.key,
      x ∉ (c.get now₀ k).2.keyOrder := by
    intro x hx hmemx
    rw [hko₁] at hmemx
    rcases List.mem_cons.mp hmemx with rfl | hmemx
    · exact hfresh x hx hkmem
    · exact hfresh x hx (hsub.subset hmemx)
  have hmain : ∀ (cp : LRUCache K V) (e : Entry V),
      cp.entries = (k, e) :: c.entries.eraseP (fun p => decide (p.1 = k)) →
      cp.maxSize = c.maxSize →
      ∀ m : K × Entry V, c.entries.getLast? = some m → m.1 ≠ k →
      ∀ d : SetCall K V, d.key ∈ ds.map SetCall.key →
        m.1 ∉ (cp.set d.now d.key d.value d.ttl).2.keyOrder := by
    intro cp e hent hms m hm hmk d hdks
    have hne : c.entries ≠ [] := by
      intro h0
      rw [h0] at hcap
      simp at hcap
      omega
    have hgl : c.entries.getLast hne = m := by
      have h := List.getLast?_eq_getLast c.entries hne
      rw [hm] at h
      exact (Option.some_inj.mp h).symm
    have hsplitc : c.entries = c.entries.dropLast ++ [m] := by
      conv_lhs => rw [← List.dropLast_append_getLast hne]
      rw [hgl]
    have hmmem : m ∈ c.entries := by
      rw [hsplitc]
      simp
    have hsplit : ∃ Y, c.entries.eraseP (fun p => decide (p.1 = k)) =
        Y ++ [m] := by
      rw [hsplitc, List.eraseP_append]
      by_cases hany :
          (c.entries.dropLast).any (fun p => decide (p.1 = k))
      · exact ⟨c.entries.dropLast.eraseP (fun p => decide (p.1 = k)),
          by simp [hany]⟩
      · refine ⟨c.entries.dropLast, ?_⟩
        rw [if_neg (by simpa using hany)]
        rw [List.eraseP_cons_of_neg (by simp [hmk])]
        simp
    obtain ⟨Y, hY⟩ := hsplit
    have hent_split : cp.entries = ((k, e) :: Y) ++ [m] := by
      rw [hent, hY]
      rfl
    have hdrop : cp.entries.dropLast = (k, e) :: Y := by
      rw [hent_split, List.dropLast_concat]
    have hndcp : (cp.entries.map Prod.fst).Nodup := by
      rw [hent]
      simp only [List.map_cons, List.nodup_cons]
      exact ⟨LRUCache.keys_eraseP_not_mem c.entries k hnd, hsub.nodup hnd⟩
    have hm_not : m.1 ∉ ((k, e) :: Y).map Prod.fst := by
      have h := hndcp
      rw [hent_split, List.map_append] at h
      intro hmm
      exact (List.nodup_append.mp h).2.2 hmm (by simp)
    have hdm : m.1 ≠ d.key := by
      intro h
      apply hfresh d.key hdks
      rw [← h]
      exact List.mem_map.mpr ⟨m, hmmem, rfl⟩
    have hko_cp : cp.keyOrder = k :: (c.entries.eraseP
        (fun p => decide (p.1 = k))).map Prod.fst := by
      simp [LRUCache.keyOrder, hent]
    have hfree_cp : cp.findNode? d.key = none := by
      rw [LRUCache.findNode?_eq_none_iff, hko_cp]
      intro hmemx
      rcases List.mem_cons.mp hmemx with h | h
      · exact hfresh d.key hdks (by rw [h]; exact hkmem)
      · exact hfresh d.key hdks (hsub.subset h)
    have hlen_cp : cp.entries.length = c.maxSize := by
      rw [hent, List.length_cons, List.length_eraseP_of_mem hmem hmemP]
      omega
    have hne_cp : cp.entries ≠ [] := by
      rw [hent]
      simp
    have hset := LRUCache.set_fresh_at_capacity cp d.now d.key d.value
      d.ttl hfree_cp (by rw [hms, hlen_cp]) hne_cp
    rw [hset]
    simp only [LRUCache.keyOrder, List.map_cons]
    rw [hdrop]
    intro hmm
    rcases List.mem_cons.mp hmm with h | h
    · exact hdm h
    · exact hm_not h
  refine ⟨?_, ?_, ?_, ?_, by decide⟩
  · exact LRUCache.head_survives_fresh_at_capacity (c.get now₀ k).2 k _
      hko₁ (by rw [hlen₁, hms₁]) (by rw [hms₁]; exact hn) ds hds hdisj₁
      (by rw [hms₁]; exact hlen)
  · intro v ttl
    have hsetex : (c.set now₀ k v ttl).2 =
        { c with entries := (LRUCache.moveToFront c.entries
            (k, ⟨v, c.calculateExpiration now₀ ttl⟩)) } := by
      simp [LRUCache.set, hfind]
    have hent₂ : (c.set now₀ k v ttl).2.entries =
        (k, (⟨v, c.calculateExpiration now₀ ttl⟩ : Entry V)) ::
          c.entries.eraseP (fun p => decide (p.1 = k)) := by
      rw [hsetex]
      simp [LRUCache.moveToFront]
    have hko₂ : (c.set now₀ k v ttl).2.keyOrder =
        k :: (c.entries.eraseP
          (fun p => decide (p.1 = k))).map Prod.fst := by
      rw [hsetex]
      simp [LRUCache.keyOrder, LRUCache.moveToFront]
    have hlen₂ : (c.set now₀ k v ttl).2.entries.length = c.maxSize := by
      rw [hent₂, List.length_cons, List.length_eraseP_of_mem hmem hmemP]
      omega
    have hms₂ : (c.set now₀ k v ttl).2.maxSize = c.maxSize := by
      rw [hsetex]
    have hdisj₂ : ∀ x ∈ ds.map SetCall.key,
        x ∉ (c.set now₀ k v ttl).2.keyOrder := by
      intro x hx hmemx
      rw [hko₂] at hmemx
      rcases List.mem_cons.mp hmemx with rfl | hmemx
      · exact hfresh x hx hkmem
      · exact hfresh x hx (hsub.subset hmemx)
    exact LRUCache.head_survives_fresh_at_capacity (c.set now₀ k v ttl).2 k
      _ hko₂ (by rw [hlen₂, hms₂]) (by rw [hms₂]; exact hn) ds hds hdisj₂
      (by rw [hms₂]; exact hlen)
  · intro m hm hmk d ds₂ hds_eq
    show m.1 ∉ ((c.get now₀ k).2.set d.now d.key d.value d.ttl).2.keyOrder
    exact hmain (c.get now₀ k).2 kv.2 hent₁ hms₁ m hm hmk d
      (by simp [hds_eq])
  · intro v ttl m hm hmk d ds₂ hds_eq
    have hsetex : (c.set now₀ k v ttl).2 =
        { c with entries := (LRUCache.moveToFront c.entries
            (k, ⟨v, c.calculateExpiration now₀ ttl⟩)) } := by
      simp [LRUCache.set, hfind]
    have hent₂ : (c.set now₀ k v ttl).2.entries =
        (k, (⟨v, c.calculateExpiration now₀ ttl⟩ : Entry V)) ::
          c.entries.eraseP (fun p => decide (p.1 = k)) := by
      rw [hsetex]
      simp [LRUCache.moveToFront]
    have hms₂ : (c.set now₀ k v ttl).2.maxSize = c.maxSize := by
      rw [hsetex]
    show m.1 ∉ ((c.set now₀ k v ttl).2.set d.now d.key d.value
      d.ttl).2.keyOrder
    exact hmain (c.set now₀ k v ttl).2
      ⟨v, c.calculateExpiration now₀ ttl⟩ hent₂ hms₂ m hm hmk d
      (by simp [hds_eq])

/-- Witness for C2 (amended): capacity 3, keys 3, 2, 1 present (1 least
recent); promoting key 2 by `get` or by `set` and inserting two fresh keys
4, 5 keeps key 2 present, and on either promotion path the first insertion
evicts exactly key 1, the pre-promotion least-recent key. -/
theorem C2_recency_promotion_amended_witness :
    2 ∈ (((⟨3, none, [(3, ⟨30, none⟩), (2, ⟨20, none⟩), (1, ⟨10, none⟩)],
        0, 0, 0⟩ : LRUCache Nat Nat).get 0 2).2.run
        (setOps [⟨0, 4, 40, none⟩, ⟨0, 5, 50, none⟩])).keyOrder ∧
    2 ∈ (((⟨3, none, [(3, ⟨30, none⟩), (2, ⟨20, none⟩), (1, ⟨10, none⟩)],
        0, 0, 0⟩ : LRUCache Nat Nat).set 0 2 99 none).2.run
        (setOps [⟨0, 4, 40, none⟩, ⟨0, 5, 50, none⟩])).keyOrder ∧
    1 ∉ (((⟨3, none, [(3, ⟨30, none⟩), (2, ⟨20, none⟩), (1, ⟨10, none⟩)],
        0, 0, 0⟩ : LRUCache Nat Nat).get 0 2).2.run
        (setOps [⟨0, 4, 40, none⟩])).keyOrder ∧
    1 ∉ (((⟨3, none, [(3, ⟨30, none⟩), (2, ⟨20, none⟩), (1, ⟨10, none⟩)],
        0, 0, 0⟩ : LRUCache Nat Nat).set 0 2 99 none).2.run
        (setOps [⟨0, 4, 40, none⟩])).keyOrder := by
  have h := C2_recency_promotion_amended
    (⟨3, none, [(3, ⟨30, none⟩), (2, ⟨20, none⟩), (1, ⟨10, none⟩)],
      0, 0, 0⟩ : LRUCache Nat Nat) 0 2 (2, ⟨20, none⟩)
    (by decide) (by decide) (by decide) (by decide) (by decide)
    [⟨0, 4, 40, none⟩, ⟨0, 5, 50, none⟩]
    (by decide) (by decide) (by decide)
  exact ⟨h.1, h.2.1 99 none,
    h.2.2.1 (1, ⟨10, none⟩) (by decide) (by decide) ⟨0, 4, 40, none⟩
      [⟨0, 5, 50, none⟩] rfl,
    h.2.2.2.1 99 none (1, ⟨10, none⟩) (by decide) (by decide)
      ⟨0, 4, 40, none⟩ [⟨0, 5, 50, none⟩] rfl⟩

/-! ## Per-operation counter and size facts (claim C6) -/

namespace LRUCache

variable {K V : Type} [DecidableEq K]

theorem set_counters (c : LRUCache K V) (now : Nat) (k : K) (v : V)
    (ttl : Option Nat) :
    (c.set now k v ttl).2.hits = c.hits ∧
    (c.set now k v ttl).2.misses = c.misses ∧
    (c.set now k v ttl).2.maxSize = c.maxSize := by
  cases hf : c.findNode? k
  · by_cases hcap : c.maxSize ≤ c.entries.length
    · cases hg : c.entries.getLast? <;>
        simp [set, hf, hcap, evictLRU, hg]
    · simp [set, hf, hcap]
  · simp [set, hf]

theorem delete_misc (c : LRUCache K V) (k : K) :
    (c.delete k).2.hits = c.hits ∧ (c.delete k).2.misses = c.misses ∧
    (c.delete k).2.evictions = c.evictions ∧
    (c.delete k).2.maxSize = c.maxSize ∧
    (c.delete k).2.entries.length ≤ c.entries.length := by
  cases hf : c.findNode? k <;> simp [delete, hf, List.length_eraseP_le]

theorem get_misc (c : LRUCache K V) (now : Nat) (k : K) :
    (c.get now k).2.evictions = c.evictions ∧
    (c.get now k).2.maxSize = c.maxSize ∧
    (c.get now k).2.entries.length ≤ c.entries.length := by
  cases hf : c.findNode? k with
  | none => simp [get, hf]
  | some kv =>
      cases hx : isExpiredAt now kv.2.expiresAt
      · have hmem := findNode?_mem hf
        have hp : (fun p : K × Entry V => decide (p.1 = k)) kv = true := by
          simp [findNode?_key hf]
        have hpos : 0 < c.entries.length :=
          List.length_pos.mpr (List.ne_nil_of_mem hmem)
        simp [get, hf, hx, moveToFront]
        rw [List.length_eraseP_of_mem hmem hp]
        omega
      · simp [get, hf, hx, delete]
        exact List.length_eraseP_le _

theorem has_misc (c : LRUCache K V) (now : Nat) (k : K) :
    (c.has now k).2.hits = c.hits ∧ (c.has now k).2.misses = c.misses ∧
    (c.has now k).2.evictions = c.evictions ∧
    (c.has now k).2.maxSize = c.maxSize ∧
    (c.has now k).2.entries.length ≤ c.entries.length := by
  cases hf : c.findNode? k with
  | none => simp [has, hf]
  | some kv =>
      cases hx : isExpiredAt now kv.2.expiresAt <;>
        simp [has, hf, hx, delete, List.length_eraseP_le]

omit [DecidableEq K] in
theorem cleanup_misc (c : LRUCache K V) (now : Nat) :
    (c.cleanup now).2.hits = c.hits ∧ (c.cleanup now).2.misses = c.misses ∧
    (c.cleanup now).2.evictions = c.evictions ∧
    (c.cleanup now).2.maxSize = c.maxSize ∧
    (c.cleanup now).2.entries.length ≤ c.entries.length := by
  simp [cleanup, List.length_filter_le]

theorem set_length_le (c : LRUCache K V) (now : Nat) (k : K) (v : V)
    (ttl : Option Nat) (hle : c.entries.length ≤ c.maxSize)
    (hn : 0 < c.maxSize) :
    (c.set now k v ttl).2.entries.length ≤ c.maxSize := by
  cases hf : c.findNode? k with
  | some kv =>
      have hmem := findNode?_mem hf
      have hp : (fun p : K × Entry V => decide (p.1 = k)) kv = true := by
        simp [findNode?_key hf]
      have hpos : 0 < c.entries.length :=
        List.length_pos.mpr (List.ne_nil_of_mem hmem)
      simp [set, hf, moveToFront]
      rw [List.length_eraseP_of_mem hmem hp]
      omega
  | none =>
      by_cases hcap : c.maxSize ≤ c.entries.length
      · have hne : c.entries ≠ [] := by
          intro h0
          rw [h0] at hcap
          simp at hcap
          omega
        rw [set_fresh_at_capacity c now k v ttl hf hcap hne]
        simp only [List.length_cons, List.length_dropLast]
        omega
      · rw [set_fresh_below c now k v ttl hf (by omega)]
        simp only [List.length_cons]
        omega

theorem set_evictions_eq (c : LRUCache K V) (now : Nat) (k : K) (v : V)
    (ttl : Option Nat) (hle : c.entries.length ≤ c.maxSize)
    (hn : 0 < c.maxSize) :
    (c.set now k v ttl).2.evictions =
      (if (c.findNode? k).isNone && decide (c.entries.length = c.maxSize)
       then c.evictions + 1 else c.evictions) := by
  cases hf : c.findNode? k with
  | some kv => simp [set, hf]
  | none =>
      by_cases hcap : c.maxSize ≤ c.entries.length
      · have heq : c.entries.length = c.maxSize := le_antisymm hle hcap
        have hne : c.entries ≠ [] := by
          intro h0
          rw [h0] at hcap
          simp at hcap
          omega
        rw [set_fresh_at_capacity c now k v ttl hf hcap hne]
        simp [heq]
      · have hne : ¬ (c.entries.length = c.maxSize) := by omega
        rw [set_fresh_below c now k v ttl hf (by omega)]
        simp [hne]

theorem run_getCalls (ops : List (CacheOp K V)) :
    ∀ (c : LRUCache K V) (acc : Nat), c.hits + c.misses = acc →
      (c.run ops).hits + (c.run ops).misses = getCalls acc ops := by
  induction ops with
  | nil =>
      intro c acc h
      simpa [run, getCalls] using h
  | cons op ops ih =>
      intro c acc h
      have hrun : c.run (op :: ops) = (c.step op).run ops := rfl
      rw [hrun]
      show _ = getCalls _ ops
      apply ih
      cases op with
      | get now k =>
          show (c.get now k).2.hits + (c.get now k).2.misses = acc + 1
          rw [get_hits_add_misses]
          omega
      | set now k v ttl =>
          show (c.set now k v ttl).2.hits + (c.set now k v ttl).2.misses = acc
          rw [(set_counters c now k v ttl).1, (set_counters c now k v ttl).2.1]
          exact h
      | del k =>
          show (c.delete k).2.hits + (c.delete k).2.misses = acc
          rw [(delete_misc c k).1, (delete_misc c k).2.1]
          exact h
      | has now k =>
          show (c.has now k).2.hits + (c.has now k).2.misses = acc
          rw [(has_misc c now k).1, (has_misc c now k).2.1]
          exact h
      | clear => simp [step, clear]
      | cleanup now =>
          show (c.cleanup now).2.hits + (c.cleanup now).2.misses = acc
          rw [(cleanup_misc c now).1, (cleanup_misc c now).2.1]
          exact h

theorem run_evictingSetCalls (ops : List (CacheOp K V)) :
    ∀ (c : LRUCache K V) (acc : Nat), c.evictions = acc →
      c.entries.length ≤ c.maxSize → 0 < c.maxSize →
      (c.run ops).evictions = evictingSetCalls c acc ops := by
  induction ops with
  | nil =>
      intro c acc h hle hn
      simpa [run, evictingSetCalls] using h
  | cons op ops ih =>
      intro c acc h hle hn
      have hrun : c.run (op :: ops) = (c.step op).run ops := rfl
      rw [hrun]
      show _ = evictingSetCalls (c.step op) _ ops
      cases op with
      | get now k =>
          refine ih _ _ ?_ ?_ ?_
          · show (c.get now k).2.evictions = acc
            rw [(get_misc c now k).1]
            exact h
          · show (c.get now k).2.entries.length ≤ (c.get now k).2.maxSize
            rw [(get_misc c now k).2.1]
            exact le_trans (get_misc c now k).2.2 hle
          · show 0 < (c.get now k).2.maxSize
            rw [(get_misc c now k).2.1]
            exact hn
      | set now k v ttl =>
          refine ih _ _ ?_ ?_ ?_
          · show (c.set now k v ttl).2.evictions =
              (if (c.findNode? k).isNone &&
                  decide (c.entries.length = c.maxSize)
               then acc + 1 else acc)
            rw [set_evictions_eq c now k v ttl hle hn, h]
          · show (c.set now k v ttl).2.entries.length ≤
              (c.set now k v ttl).2.maxSize
            rw [(set_counters c now k v ttl).2.2]
            exact set_length_le c now k v ttl hle hn
          · show 0 < (c.set now k v ttl).2.maxSize
            rw [(set_counters c now k v ttl).2.2]
            exact hn
      | del k =>
          refine ih _ _ ?_ ?_ ?_
          · show (c.delete k).2.evictions = acc
            rw [(delete_misc c k).2.2.1]
            exact h
          · show (c.delete k).2.entries.length ≤ (c.delete k).2.maxSize
            rw [(delete_misc c k).2.2.2.1]
            exact le_trans (delete_misc c k).2.2.2.2 hle
          · show 0 < (c.delete k).2.maxSize
            rw [(delete_misc c k).2.2.2.1]
            exact hn
      | has now k =>
          refine ih _ _ ?_ ?_ ?_
          · show (c.has now k).2.evictions = acc
            rw [(has_misc c now k).2.2.1]
            exact h
          · show (c.has now k).2.entries.length ≤ (c.has now k).2.maxSize
            rw [(has_misc c now k).2.2.2.1]
            exact le_trans (has_misc c now k).2.2.2.2 hle
          · show 0 < (c.has now k).2.maxSize
            rw [(has_misc c now k).2.2.2.1]
            exact hn
      | clear =>
          refine ih _ _ ?_ ?_ ?_
          · rfl
          · show (c.clear).entries.length ≤ (c.clear).maxSize
            simp [clear]
          · exact hn
      | cleanup now =>
          refine ih _ _ ?_ ?_ ?_
          · show (c.cleanup now).2.evictions = acc
            rw [(cleanup_misc c now).2.2.1]
            exact h
          · show (c.cleanup now).2.entries.length ≤ (c.cleanup now).2.maxSize
            rw [(cleanup_misc c now).2.2.2.1]
            exact le_trans (cleanup_misc c now).2.2.2.2 hle
          · show 0 < (c.cleanup now).2.maxSize
            rw [(cleanup_misc c now).2.2.2.1]
            exact hn

end LRUCache

/-- C6: from a fresh cache, after any trace of engine calls, `hits + misses`
equals the number of `get` calls since the last `clear` (each `get`
contributes exactly one to one of the two, and a `getMultiple` contributes
one per input key); `evictions` equals the number of `set` calls on new keys
made while the cache held exactly `maxSize` entries (since the last
`clear`); and `getStats().hitRate` is `hits / (hits + misses)` when the
denominator is positive and `0` otherwise. -/
theorem C6_stats_correctness {K V : Type} [DecidableEq K] (n : Nat)
    (hn : 0 < n) (ttl : Option Nat) (ops : List (CacheOp K V)) :
    ((LRUCache.empty n ttl : LRUCache K V).run ops).hits +
        ((LRUCache.empty n ttl : LRUCache K V).run ops).misses =
      LRUCache.getCalls 0 ops ∧
    ((LRUCache.empty n ttl : LRUCache K V).run ops).evictions =
      LRUCache.evictingSetCalls (LRUCache.empty n ttl : LRUCache K V) 0 ops ∧
    (∀ c : LRUCache K V,
      c.getStats.hitRate =
        (if 0 < c.hits + c.misses
         then (c.hits : ℚ) / ((c.hits : ℚ) + (c.misses : ℚ)) else 0) ∧
      c.getStats.hits = c.hits ∧ c.getStats.misses = c.misses ∧
      c.getStats.evictions = c.evictions) ∧
    (∀ (c : LRUCache K V) (now : Nat) (ks : List K),
      (c.getMultiple now ks).2.hits + (c.getMultiple now ks).2.misses =
        c.hits + c.misses + ks.length) := by
  refine ⟨?_, ?_, fun c => ?_, fun c now ks => ?_⟩
  · exact LRUCache.run_getCalls ops (LRUCache.empty n ttl) 0 rfl
  · exact LRUCache.run_evictingSetCalls ops (LRUCache.empty n ttl) 0 rfl
      (by simp [LRUCache.empty]) hn
  · refine ⟨?_, rfl, rfl, rfl⟩
    by_cases h : 0 < c.hits + c.misses
    · simp only [LRUCache.getStats, gt_iff_lt, h, if_true]
      push_cast
      ring_nf
    · simp [LRUCache.getStats, h]
  · exact LRUCache.getMultipleAux_stats c now ks

/-- Witness for C6: a concrete trace on capacity 2 — three inserts (one
eviction), a hit and a miss. -/
theorem C6_stats_correctness_witness :
    ((LRUCache.empty 2 none : LRUCache Nat Nat).run
        [CacheOp.set 0 1 10 none, CacheOp.set 0 2 20 none,
          CacheOp.set 0 3 30 none, CacheOp.get 0 3,
          CacheOp.get 0 1]).hits +
      ((LRUCache.empty 2 none : LRUCache Nat Nat).run
        [CacheOp.set 0 1 10 none, CacheOp.set 0 2 20 none,
          CacheOp.set 0 3 30 none, CacheOp.get 0 3,
          CacheOp.get 0 1]).misses =
      LRUCache.getCalls 0
        [CacheOp.set 0 1 10 none, CacheOp.set 0 2 20 none,
          CacheOp.set 0 3 30 none, CacheOp.get 0 3, CacheOp.get 0 1] ∧
    ((LRUCache.empty 2 none : LRUCache Nat Nat).run
        [CacheOp.set 0 1 10 none, CacheOp.set 0 2 20 none,
          CacheOp.set 0 3 30 none, CacheOp.get 0 3,
          CacheOp.get 0 1]).evictions =
      LRUCache.evictingSetCalls (LRUCache.empty 2 none : LRUCache Nat Nat) 0
        [CacheOp.set 0 1 10 none, CacheOp.set 0 2 20 none,
          CacheOp.set 0 3 30 none, CacheOp.get 0 3, CacheOp.get 0 1] := by
  have h := C6_stats_correctness 2 (by decide) none
    [CacheOp.set 0 1 10 none, CacheOp.set 0 2 20 none,
      CacheOp.set 0 3 30 none, CacheOp.get 0 3,
      (CacheOp.get 0 1 : CacheOp Nat Nat)]
  exact ⟨h.1, h.2.1⟩
